import Mathlib

/-!
Shallow embedding of the `Matrix3` engine of the space3 repository
(`src/Matrix3.ts`) and verification of its specification.

The source class extends `Float64Array` with nine cells `this[0] … this[8]`
in column-major order: cell `3*j + i` holds the entry at row `i`, column `j`.
We embed a matrix as a structure with fields `c0 … c8` standing for
`this[0] … this[8]`, over an arbitrary field (exact arithmetic in place of
IEEE doubles).  Mutating methods become state-passing functions: a method
that writes into `this` and returns `this` becomes a function from the old
matrix value to the new one; the `undefined` sentinel of `inv` becomes
`Option.none`.

The collaborating modules `Algebra.ts` and `Vector3.ts` are not part of the
sources; the few members the claims need (`epsilon2`, `mag`, `mag2`, the
3-component vector value type) are modelled from the spec and marked as such
in their doc comments.
-/

namespace Space3

/-- Modelled from the spec: the external `Vector3` collaborator, "an
ownership-independent 3-component numeric value" with indexable components
`[0..2]`.  Field `vk` stands for `u[k]`. -/
structure Vector3 (α : Type) where
  v0 : α
  v1 : α
  v2 : α
deriving DecidableEq

/-- The nine cells of the `Float64Array` buffer of `Matrix3`:
field `ck` stands for `this[k]` (column-major, `this[3*j+i]` = row `i`,
column `j`). -/
structure Matrix3 (α : Type) where
  c0 : α
  c1 : α
  c2 : α
  c3 : α
  c4 : α
  c5 : α
  c6 : α
  c7 : α
  c8 : α
deriving DecidableEq

namespace Matrix3

variable {α : Type} [Field α]

/-- The `Matrix3` constructor: takes components in row-major argument order
`(xx, xy, xz, yx, yy, yz, zx, zy, zz)` and stores them column-major
(`this[0]=xx; this[1]=yx; this[2]=zx; this[3]=xy; …`). -/
def make (xx xy xz yx yy yz zx zy zz : α) : Matrix3 α :=
  ⟨xx, yx, zx, xy, yy, zy, xz, yz, zz⟩

/-- The logical entry at row `i`, column `j`: cell `3*j + i` of the buffer
(the class's documented column-major mapping). -/
def entry (m : Matrix3 α) (i j : Fin 3) : α :=
  match i, j with
  | 0, 0 => m.c0
  | 1, 0 => m.c1
  | 2, 0 => m.c2
  | 0, 1 => m.c3
  | 1, 1 => m.c4
  | 2, 1 => m.c5
  | 0, 2 => m.c6
  | 1, 2 => m.c7
  | 2, 2 => m.c8

/-- Getter `get x()`: returns `new Vector3(this[0], this[1], this[2])`. -/
def x (m : Matrix3 α) : Vector3 α :=
  ⟨m.c0, m.c1, m.c2⟩

/-- Setter `set x(newX)`: writes `this[0] = newX[0]; this[3] = newX[1];
this[6] = newX[2]`. -/
def setX (m : Matrix3 α) (newX : Vector3 α) : Matrix3 α :=
  { m with c0 := newX.v0, c3 := newX.v1, c6 := newX.v2 }

/-- Getter `get y()`: returns `new Vector3(this[3], this[4], this[5])`. -/
def y (m : Matrix3 α) : Vector3 α :=
  ⟨m.c3, m.c4, m.c5⟩

/-- Setter `set y(newY)`: writes `this[1] = newY[0]; this[4] = newY[1];
this[7] = newY[2]`. -/
def setY (m : Matrix3 α) (newY : Vector3 α) : Matrix3 α :=
  { m with c1 := newY.v0, c4 := newY.v1, c7 := newY.v2 }

/-- Getter `get z()`: returns `new Vector3(this[6], this[7], this[8])`. -/
def z (m : Matrix3 α) : Vector3 α :=
  ⟨m.c6, m.c7, m.c8⟩

/-- Setter `set z(newZ)`: writes `this[2] = newZ[0]; this[5] = newZ[1];
this[8] = newZ[2]`. -/
def setZ (m : Matrix3 α) (newZ : Vector3 α) : Matrix3 α :=
  { m with c2 := newZ.v0, c5 := newZ.v1, c8 := newZ.v2 }

/-- Getter `get det()`: cofactor expansion exactly as written in the source. -/
def det (m : Matrix3 α) : α :=
  let mxx := m.c0
  let myx := m.c1
  let mzx := m.c2
  let mxy := m.c3
  let myy := m.c4
  let mzy := m.c5
  let mxz := m.c6
  let myz := m.c7
  let mzz := m.c8
  mxx * (mzz * myy - mzy * myz) + myx * (-mzz * mxy + mzy * mxz) +
    mzx * (myz * mxy - myy * mxz)

/-- `array()`: `[...this]`, the nine cells in buffer (column-major) order. -/
def array (m : Matrix3 α) : List α :=
  [m.c0, m.c1, m.c2, m.c3, m.c4, m.c5, m.c6, m.c7, m.c8]

/-- Static `Matrix3.array(arr)`: builds a matrix from a flat array read in
row-major order, `new Matrix3(arr[0], …, arr[8])`.  (Named `ofArray` here
because the instance method `array` already takes the name; out-of-range
reads — `undefined` in JS — are not exercised by any claim and default
to `0`.) -/
def ofArray (arr : List α) : Matrix3 α :=
  make (arr.getD 0 0) (arr.getD 1 0) (arr.getD 2 0)
    (arr.getD 3 0) (arr.getD 4 0) (arr.getD 5 0)
    (arr.getD 6 0) (arr.getD 7 0) (arr.getD 8 0)

/-- `assign(...)`: explicitly sets all components, row-major argument order,
same cell layout as the constructor. -/
def assign (m : Matrix3 α) (xx xy xz yx yy yz zx zy zz : α) : Matrix3 α :=
  let _ := m
  ⟨xx, yx, zx, xy, yy, zy, xz, yz, zz⟩

/-- `clone()`: `new Matrix3(this[0], this[3], this[6], this[1], this[4],
this[7], this[2], this[5], this[8])` — reads the cells back in row-major
order and feeds them to the row-major constructor. -/
def clone (m : Matrix3 α) : Matrix3 α :=
  make m.c0 m.c3 m.c6 m.c1 m.c4 m.c7 m.c2 m.c5 m.c8

/-- `fill(s)`: sets every cell to `s`. -/
def fill (m : Matrix3 α) (s : α) : Matrix3 α :=
  let _ := m
  ⟨s, s, s, s, s, s, s, s, s⟩

/-- `fillc(s)`: `this.clone().fill(s)`. -/
def fillc (m : Matrix3 α) (s : α) : Matrix3 α :=
  fill (clone m) s

/-- `add(m)`: cellwise addition into `this`. -/
def add (m k : Matrix3 α) : Matrix3 α :=
  ⟨m.c0 + k.c0, m.c1 + k.c1, m.c2 + k.c2, m.c3 + k.c3, m.c4 + k.c4,
   m.c5 + k.c5, m.c6 + k.c6, m.c7 + k.c7, m.c8 + k.c8⟩

/-- `addc(m)`: `this.clone().add(m)`. -/
def addc (m k : Matrix3 α) : Matrix3 α :=
  add (clone m) k

/-- `sub(m)`: cellwise subtraction into `this`. -/
def sub (m k : Matrix3 α) : Matrix3 α :=
  ⟨m.c0 - k.c0, m.c1 - k.c1, m.c2 - k.c2, m.c3 - k.c3, m.c4 - k.c4,
   m.c5 - k.c5, m.c6 - k.c6, m.c7 - k.c7, m.c8 - k.c8⟩

/-- `subc(m)`: `this.clone().sub(m)`. -/
def subc (m k : Matrix3 α) : Matrix3 α :=
  sub (clone m) k

/-- `neg()`: multiplies every cell by `-1`. -/
def neg (m : Matrix3 α) : Matrix3 α :=
  ⟨m.c0 * -1, m.c1 * -1, m.c2 * -1, m.c3 * -1, m.c4 * -1,
   m.c5 * -1, m.c6 * -1, m.c7 * -1, m.c8 * -1⟩

/-- `negc()`: `this.clone().neg()`. -/
def negc (m : Matrix3 α) : Matrix3 α :=
  neg (clone m)

/-- `mul(s)`: multiplies every cell by the scalar `s`. -/
def mul (m : Matrix3 α) (s : α) : Matrix3 α :=
  ⟨m.c0 * s, m.c1 * s, m.c2 * s, m.c3 * s, m.c4 * s,
   m.c5 * s, m.c6 * s, m.c7 * s, m.c8 * s⟩

/-- `mulc(s)`: `this.clone().mul(s)`. -/
def mulc (m : Matrix3 α) (s : α) : Matrix3 α :=
  mul (clone m) s

/-- `div(s)`: divides every cell by the scalar `s`. -/
def div (m : Matrix3 α) (s : α) : Matrix3 α :=
  ⟨m.c0 / s, m.c1 / s, m.c2 / s, m.c3 / s, m.c4 / s,
   m.c5 / s, m.c6 / s, m.c7 / s, m.c8 / s⟩

/-- `divc(s)`: `this.clone().div(s)`. -/
def divc (m : Matrix3 α) (s : α) : Matrix3 α :=
  div (clone m) s

/-- `lerp(m, t)`: cellwise `this[k] += (m[k] - this[k]) * t`. -/
def lerp (m k : Matrix3 α) (t : α) : Matrix3 α :=
  ⟨m.c0 + (k.c0 - m.c0) * t, m.c1 + (k.c1 - m.c1) * t,
   m.c2 + (k.c2 - m.c2) * t, m.c3 + (k.c3 - m.c3) * t,
   m.c4 + (k.c4 - m.c4) * t, m.c5 + (k.c5 - m.c5) * t,
   m.c6 + (k.c6 - m.c6) * t, m.c7 + (k.c7 - m.c7) * t,
   m.c8 + (k.c8 - m.c8) * t⟩

/-- `lerpc(m, t)`: `this.clone().lerp(m, t)`. -/
def lerpc (m k : Matrix3 α) (t : α) : Matrix3 α :=
  lerp (clone m) k t

/-- `trans()`: in-place transpose; locals `mxy = this[1]`, `mxz = this[2]`,
`myz = this[5]` are saved, then the six off-diagonal cells are rewritten in
the source's order (each right-hand side reads a not-yet-overwritten cell). -/
def trans (m : Matrix3 α) : Matrix3 α :=
  let mxy := m.c1
  let mxz := m.c2
  let myz := m.c5
  ⟨m.c0, m.c3, m.c6, mxy, m.c4, m.c7, mxz, myz, m.c8⟩

/-- `transc()`: `this.clone().trans()`. -/
def transc (m : Matrix3 α) : Matrix3 α :=
  trans (clone m)

/-- `prod(m)`: matrix product `this = this × m`; all nine cells of both
operands are captured into locals `xx … zz` (receiver) and `mxx … mzz`
(argument) before any write. -/
def prod (m k : Matrix3 α) : Matrix3 α :=
  let xx := m.c0
  let yx := m.c1
  let zx := m.c2
  let xy := m.c3
  let yy := m.c4
  let zy := m.c5
  let xz := m.c6
  let yz := m.c7
  let zz := m.c8
  let mxx := k.c0
  let myx := k.c1
  let mzx := k.c2
  let mxy := k.c3
  let myy := k.c4
  let mzy := k.c5
  let mxz := k.c6
  let myz := k.c7
  let mzz := k.c8
  ⟨mxx * xx + myx * xy + mzx * xz,
   mxx * yx + myx * yy + mzx * yz,
   mxx * zx + myx * zy + mzx * zz,
   mxy * xx + myy * xy + mzy * xz,
   mxy * yx + myy * yy + mzy * yz,
   mxy * zx + myy * zy + mzy * zz,
   mxz * xx + myz * xy + mzz * xz,
   mxz * yx + myz * yy + mzz * yz,
   mxz * zx + myz * zy + mzz * zz⟩

/-- `prodc(m)`: `this.clone().prod(m)`. -/
def prodc (m k : Matrix3 α) : Matrix3 α :=
  prod (clone m) k

/-- `inv()`: adjugate-over-determinant inverse.  The source computes its own
determinant from the captured locals and returns `undefined` (modelled as
`none`, the receiver unmutated) when it is zero (`!det`); otherwise it
overwrites the nine cells with the inverse and returns `this`. -/
def inv [DecidableEq α] (m : Matrix3 α) : Option (Matrix3 α) :=
  let xx := m.c0
  let yx := m.c1
  let zx := m.c2
  let xy := m.c3
  let yy := m.c4
  let zy := m.c5
  let xz := m.c6
  let yz := m.c7
  let zz := m.c8
  let dyx := zz * yy - zy * yz
  let dyy := -zz * xy + zy * xz
  let dyz := yz * xy - yy * xz
  let d := xx * dyx + yx * dyy + zx * dyz
  if d = 0 then none
  else
    let det := 1 / d
    some ⟨dyx * det,
      (-zz * yx + zx * yz) * det,
      (zy * yx - zx * yy) * det,
      dyy * det,
      (zz * xx - zx * xz) * det,
      (-zy * xx + zx * xy) * det,
      dyz * det,
      (-yz * xx + yx * xz) * det,
      (yy * xx - yx * xy) * det⟩

/-- `invc()`: `this.clone().inv()` — `undefined` (`none`) on a singular
matrix. -/
def invc [DecidableEq α] (m : Matrix3 α) : Option (Matrix3 α) :=
  inv (clone m)

/-- `dist2(m)`: squared Frobenius distance, sum over the nine cellwise
squared differences. -/
def dist2 (m k : Matrix3 α) : α :=
  let dxx := m.c0 - k.c0
  let dyx := m.c1 - k.c1
  let dzx := m.c2 - k.c2
  let dxy := m.c3 - k.c3
  let dyy := m.c4 - k.c4
  let dzy := m.c5 - k.c5
  let dxz := m.c6 - k.c6
  let dyz := m.c7 - k.c7
  let dzz := m.c8 - k.c8
  dxx * dxx + dyx * dyx + dzx * dzx + dxy * dxy + dyy * dyy + dzy * dzy +
    dxz * dxz + dyz * dyz + dzz * dzz

/-- `at(u)`: matrix-vector product `M·u`, written back into `u` (modelled
state-passing: the returned vector is the new value of the argument).
Named `atv` because `at` is a reserved word in Lean. -/
def atv (m : Matrix3 α) (u : Vector3 α) : Vector3 α :=
  let ux := u.v0
  let uy := u.v1
  let uz := u.v2
  ⟨m.c0 * ux + m.c3 * uy + m.c6 * uz,
   m.c1 * ux + m.c4 * uy + m.c7 * uz,
   m.c2 * ux + m.c5 * uy + m.c8 * uz⟩

/-- `rpow(exp)` (private): recursive binary exponentiation.  For `exp > 1`
the receiver is squared against a clone taken beforehand, the halved
exponent is recursed on, and for odd `exp` one extra product with the
original clone is taken. -/
def rpow (m : Matrix3 α) (exp : Nat) : Matrix3 α :=
  if 1 < exp then
    let copy := clone m
    let sq := prod m copy
    if exp % 2 = 0 then rpow sq (exp / 2)
    else prod (rpow sq ((exp - 1) / 2)) copy
  else m
termination_by exp
decreasing_by
  · omega
  · omega

/-- `pow(exp)`: integer exponentiation.  A negative exponent first applies
`inv()` as a bare statement (a failed inversion of a singular receiver is
silently ignored and leaves the receiver unchanged); a zero exponent
assigns the identity; then `rpow(Math.abs(exp))` runs. -/
def pow [DecidableEq α] (m : Matrix3 α) (exp : Int) : Matrix3 α :=
  let m1 := if exp < 0 then (inv m).getD m else m
  let m2 := if exp = 0 then assign m1 1 0 0 0 1 0 0 0 1 else m1
  rpow m2 exp.natAbs

/-- `powc(exp)`: `this.clone().pow(exp)`. -/
def powc [DecidableEq α] (m : Matrix3 α) (exp : Int) : Matrix3 α :=
  pow (clone m) exp

/-- `adj()`: classical adjugate via the nine closed-form cofactor
expressions of the source. -/
def adj (m : Matrix3 α) : Matrix3 α :=
  let xx := m.c0
  let yx := m.c1
  let zx := m.c2
  let xy := m.c3
  let yy := m.c4
  let zy := m.c5
  let xz := m.c6
  let yz := m.c7
  let zz := m.c8
  ⟨yy * zz - zy * yz,
   zx * yz - yx * zz,
   yx * zy - zx * yy,
   zy * xz - xy * zz,
   xx * zz - zx * xz,
   zx * xy - xx * zy,
   xy * yz - yy * xz,
   yx * xz - xx * yz,
   xx * yy - yx * xy⟩

/-- `adjc()`: `this.clone().adj()`. -/
def adjc (m : Matrix3 α) : Matrix3 α :=
  adj (clone m)

/-- Static `Matrix3.zeros`. -/
def zeros : Matrix3 α :=
  make 0 0 0 0 0 0 0 0 0

/-- Static `Matrix3.eye`: the identity matrix. -/
def eye : Matrix3 α :=
  make 1 0 0 0 1 0 0 0 1

/-- Static `Matrix3.scalar(s)`: diagonal matrix filled with `s`. -/
def scalar (s : α) : Matrix3 α :=
  make s 0 0 0 s 0 0 0 s

/-- Static `Matrix3.rotZ(theta, cos, sin)`: anticlockwise rotation about the
`z` axis; the trigonometric functions are injectable parameters (defaulting
to `Math.cos`/`Math.sin` in the source). -/
def rotZ (theta : α) (cos sin : α → α) : Matrix3 α :=
  let c := cos theta
  let s := sin theta
  make c (-s) 0 s c 0 0 0 1

/-- Modelled from the spec: `mag2` of the `Algebra` module (not under
`src/`), "squared magnitude" — the sum of the squared entries of the
container (Frobenius norm squared for matrices). -/
def mag2 (m : Matrix3 α) : α :=
  m.c0 * m.c0 + m.c1 * m.c1 + m.c2 * m.c2 + m.c3 * m.c3 + m.c4 * m.c4 +
    m.c5 * m.c5 + m.c6 * m.c6 + m.c7 * m.c7 + m.c8 * m.c8

/-- Modelled from the spec: `mag` of the `Algebra` module — the Frobenius
magnitude, the square root of `mag2`; over the reals. -/
noncomputable def mag (m : Matrix3 ℝ) : ℝ :=
  Real.sqrt (mag2 m)

/-- `norm()`: divides every cell by `s = mag(this)` (the Frobenius
magnitude supplied by the `Algebra` module). -/
noncomputable def norm (m : Matrix3 ℝ) : Matrix3 ℝ :=
  let s := mag m
  ⟨m.c0 / s, m.c1 / s, m.c2 / s, m.c3 / s, m.c4 / s,
   m.c5 / s, m.c6 / s, m.c7 / s, m.c8 / s⟩

/-- `normc()`: `this.clone().norm()`. -/
noncomputable def normc (m : Matrix3 ℝ) : Matrix3 ℝ :=
  norm (clone m)

end Matrix3

/-- Modelled from the spec: the global fuzzy-comparison tolerance
`epsilon2` of the `Algebra` module (not under `src/`), "a fixed small
tolerance" shared by `equal` and `zero`.  The spec fixes no numeric value,
so it is modelled as the square of the double-precision machine epsilon,
`(2 ^ 52)⁻¹ ^ 2 = (2 ^ 104)⁻¹`; the verification only relies on it being
positive and small. -/
def epsilon2 {α : Type} [Field α] : α :=
  ((2 : α) ^ 104)⁻¹

namespace Matrix3

variable {α : Type} [LinearOrderedField α]

/-- `equal(m)`: fuzzy equality, `this.dist2(m) < epsilon2`. -/
def equal (m k : Matrix3 α) : Prop :=
  dist2 m k < epsilon2

instance (m k : Matrix3 α) [DecidableEq α] : Decidable (equal m k) := by
  unfold equal
  exact inferInstance

end Matrix3

namespace Vector3

/-- Modelled from the spec: squared Euclidean distance between two
3-vectors (the `Vector3`/`Algebra` sources are not under `src/`), the sum
of the squared componentwise differences. -/
def dist2 {α : Type} [Field α] (u w : Vector3 α) : α :=
  (u.v0 - w.v0) * (u.v0 - w.v0) + (u.v1 - w.v1) * (u.v1 - w.v1) +
    (u.v2 - w.v2) * (u.v2 - w.v2)

end Vector3

namespace Matrix3

section Helpers

variable {α : Type} [Field α]

omit [Field α] in
/-- `clone` reproduces its receiver exactly: the row-major read-out of the
cells fed back to the row-major constructor is the identity permutation of
the buffer. -/
theorem clone_eq (m : Matrix3 α) : clone m = m := by
  cases m
  rfl

instance : One (Matrix3 α) := ⟨eye⟩

instance : Mul (Matrix3 α) := ⟨prod⟩

theorem mul_def (m k : Matrix3 α) : m * k = prod m k := rfl

theorem one_def : (1 : Matrix3 α) = eye := rfl

theorem prod_assoc (a b c : Matrix3 α) :
    prod (prod a b) c = prod a (prod b c) := by
  cases a
  cases b
  cases c
  simp only [prod, mk.injEq]
  refine ⟨?_, ?_, ?_, ?_, ?_, ?_, ?_, ?_, ?_⟩ <;> ring

theorem eye_prod (m : Matrix3 α) : prod eye m = m := by
  cases m
  simp only [prod, eye, make, mk.injEq]
  refine ⟨?_, ?_, ?_, ?_, ?_, ?_, ?_, ?_, ?_⟩ <;> ring

theorem prod_eye (m : Matrix3 α) : prod m eye = m := by
  cases m
  simp only [prod, eye, make, mk.injEq]
  refine ⟨?_, ?_, ?_, ?_, ?_, ?_, ?_, ?_, ?_⟩ <;> ring

instance : Monoid (Matrix3 α) where
  mul_assoc := prod_assoc
  one_mul := eye_prod
  mul_one := prod_eye

/-- Refinement layer, following the spec's words: the "n-fold matrix
product M·M·…·M" that `pow` is claimed to compute, with the empty product
being the identity. -/
def mpow (m : Matrix3 α) : Nat → Matrix3 α
  | 0 => eye
  | n + 1 => prod (mpow m n) m

theorem mpow_eq_pow (m : Matrix3 α) (n : Nat) : mpow m n = m ^ n := by
  induction n with
  | zero => rfl
  | succ n ih =>
    rw [mpow, ih, pow_succ]
    rfl

theorem rpow_eq (e : Nat) (m : Matrix3 α) (he : 1 ≤ e) : rpow m e = m ^ e := by
  induction e using Nat.strong_induction_on generalizing m with
  | _ e ih =>
    rw [rpow]
    split_ifs with h1 h2
    · simp only [clone_eq]
      rw [ih (e / 2) (by omega) (prod m m) (by omega), ← mul_def, ← pow_two,
        ← pow_mul, Nat.mul_div_cancel' ⟨e / 2, by omega⟩]
    · simp only [clone_eq]
      rw [ih ((e - 1) / 2) (by omega) (prod m m) (by omega), ← mul_def,
        ← mul_def, ← pow_two, ← pow_mul, ← pow_succ]
      congr 1
      omega
    · have h : e = 1 := by omega
      rw [h, pow_one]

theorem inv_eq_none_iff [DecidableEq α] (m : Matrix3 α) :
    inv m = none ↔ det m = 0 := by
  simp only [inv, det]
  split_ifs with h
  · simp only [true_iff]
    linear_combination h
  · simp only [false_iff, reduceCtorEq]
    intro h0
    exact h (by linear_combination h0)

theorem prod_mul_assoc (m k : Matrix3 α) (s : α) :
    prod m (mul k s) = mul (prod m k) s := by
  cases m
  cases k
  simp only [prod, mul, mk.injEq]
  refine ⟨?_, ?_, ?_, ?_, ?_, ?_, ?_, ?_, ?_⟩ <;> ring

theorem mul_prod_assoc (m k : Matrix3 α) (s : α) :
    prod (mul m s) k = mul (prod m k) s := by
  cases m
  cases k
  simp only [prod, mul, mk.injEq]
  refine ⟨?_, ?_, ?_, ?_, ?_, ?_, ?_, ?_, ?_⟩ <;> ring

/-- The fundamental adjugate identity: multiplying a matrix by its adjugate
on the right gives the scalar matrix of the determinant, exactly. -/
theorem prod_adj (m : Matrix3 α) : prod m (adj m) = scalar (det m) := by
  cases m
  simp only [prod, adj, scalar, make, det, mk.injEq]
  refine ⟨?_, ?_, ?_, ?_, ?_, ?_, ?_, ?_, ?_⟩ <;> ring

/-- The adjugate identity on the left. -/
theorem adj_prod (m : Matrix3 α) : prod (adj m) m = scalar (det m) := by
  cases m
  simp only [prod, adj, scalar, make, det, mk.injEq]
  refine ⟨?_, ?_, ?_, ?_, ?_, ?_, ?_, ?_, ?_⟩ <;> ring

theorem scalar_mul_inv (s : α) (h : s ≠ 0) : mul (scalar s) (1 / s) = eye := by
  simp only [mul, scalar, eye, make, mk.injEq]
  refine ⟨?_, ?_, ?_, ?_, ?_, ?_, ?_, ?_, ?_⟩ <;>
    simp [mul_one_div, div_self h, mul_inv_cancel₀ h]

/-- On a nonsingular receiver, `inv` succeeds and the nine cells it writes
are exactly the adjugate cofactors scaled by the reciprocal determinant. -/
theorem inv_eq_adj_div [DecidableEq α] (m : Matrix3 α) (h : ¬det m = 0) :
    inv m = some (mul (adj m) (1 / det m)) := by
  obtain ⟨a0, a1, a2, a3, a4, a5, a6, a7, a8⟩ := m
  simp only [det] at h
  simp only [inv, adj, mul, det]
  rw [if_neg h]
  simp only [Option.some.injEq, mk.injEq]
  refine ⟨?_, ?_, ?_, ?_, ?_, ?_, ?_, ?_, ?_⟩ <;> ring

theorem inv_correct [DecidableEq α] (m mi : Matrix3 α)
    (h : inv m = some mi) : prod m mi = eye ∧ prod mi m = eye := by
  have hd : ¬det m = 0 := by
    intro h0
    rw [(inv_eq_none_iff m).mpr h0] at h
    cases h
  have hmi : mi = mul (adj m) (1 / det m) := by
    have h2 := inv_eq_adj_div m hd
    rw [h] at h2
    exact Option.some_inj.mp h2
  subst hmi
  constructor
  · rw [prod_mul_assoc, prod_adj, scalar_mul_inv _ hd]
  · rw [mul_prod_assoc, adj_prod, scalar_mul_inv _ hd]

theorem pow_natCast [DecidableEq α] (m : Matrix3 α) (n : Nat) :
    pow m (n : Int) = mpow m n := by
  rw [mpow_eq_pow]
  rcases Nat.eq_zero_or_pos n with h0 | h0
  · subst h0
    rw [show pow m ((0 : Nat) : Int) = rpow (assign m 1 0 0 0 1 0 0 0 1) 0 from
      rfl, rpow, if_neg (by omega : ¬(1 < 0)), pow_zero, one_def]
    rfl
  · have hlt : ¬((n : Int) < 0) := by omega
    have hne : ¬((n : Int) = 0) := by omega
    simp only [pow]
    rw [if_neg hlt, if_neg hne, Int.natAbs_ofNat]
    exact rpow_eq n m h0

theorem pow_neg_singular [DecidableEq α] (m : Matrix3 α) (h : det m = 0)
    (n : Int) (hn : n < 0) : pow m n = mpow m n.natAbs := by
  rw [mpow_eq_pow]
  simp only [pow]
  rw [if_pos hn, (inv_eq_none_iff m).mpr h, Option.getD_none,
    if_neg (by omega : ¬(n = 0))]
  exact rpow_eq n.natAbs m (by omega)

end Helpers

section FuzzyHelpers

variable {α : Type} [LinearOrderedField α]

theorem epsilon2_pos : (0 : α) < epsilon2 := by
  rw [epsilon2]
  positivity

theorem equal_of_eq {m k : Matrix3 α} (h : m = k) : equal m k := by
  subst h
  rw [equal]
  have h0 : dist2 m m = 0 := by
    simp [dist2]
  rw [h0]
  exact epsilon2_pos

end FuzzyHelpers

section Claims

/-- C1: for every matrix `M`, `M.inv()` yields the absence sentinel
(`undefined`, embedded as `none` with the receiver value untouched — the
source returns before any write) exactly when `M.det == 0`; when the
determinant is nonzero it rewrites the receiver into a genuine two-sided
inverse of `M`. -/
theorem inv_sentinel_iff_det_eq_zero {α : Type} [Field α] [DecidableEq α]
    (m : Matrix3 α) :
    (inv m = none ↔ det m = 0) ∧
      ∀ mi : Matrix3 α, inv m = some mi →
        prod m mi = eye ∧ prod mi m = eye :=
  ⟨inv_eq_none_iff m, fun mi h => inv_correct m mi h⟩

/-- Witness for C1 at the concrete invertible matrix `diag(2,1,1)` over
`ℚ`, whose computed inverse is `diag(1/2,1,1)`. -/
theorem inv_sentinel_iff_det_eq_zero_witness :
    prod (make 2 0 0 0 1 0 0 0 1 : Matrix3 ℚ)
        (make (1 / 2) 0 0 0 1 0 0 0 1) = eye ∧
      prod (make (1 / 2) 0 0 0 1 0 0 0 1 : Matrix3 ℚ)
        (make 2 0 0 0 1 0 0 0 1) = eye :=
  (inv_sentinel_iff_det_eq_zero (make 2 0 0 0 1 0 0 0 1)).2
    (make (1 / 2) 0 0 0 1 0 0 0 1) (by norm_num [inv, make])

/-- C2: `A.prod(B)` stores the right-multiplication product — every logical
entry `(i,j)` is `Σₖ A(i,k)·B(k,j)` — and because all 18 operand cells are
captured into locals before any write, the aliased call `A.prod(A)` is the
2-fold product A². -/
theorem prod_is_matrix_product {α : Type} [Field α] (a b : Matrix3 α) :
    (∀ i j : Fin 3, entry (prod a b) i j =
        entry a i 0 * entry b 0 j + entry a i 1 * entry b 1 j +
          entry a i 2 * entry b 2 j) ∧
      prod a a = mpow a 2 := by
  constructor
  · intro i j
    obtain ⟨a0, a1, a2, a3, a4, a5, a6, a7, a8⟩ := a
    obtain ⟨b0, b1, b2, b3, b4, b5, b6, b7, b8⟩ := b
    fin_cases i <;> fin_cases j <;> simp [entry, prod] <;> ring
  · rw [mpow_eq_pow, pow_two]
    rfl

/-- C3: for every exponent `n ≥ 0`, `pow(n)` is the n-fold product (with
`pow(0)` the identity even on singular input), and consequently
`M.powc(a).prod(M.powc(b)) == M.powc(a+b)` under the fuzzy equality. -/
theorem pow_nonneg_correct {α : Type} [LinearOrderedField α] (m : Matrix3 α)
    (n a b : Nat) :
    pow m (n : Int) = mpow m n ∧ pow m 0 = eye ∧
      equal (prod (powc m (a : Int)) (powc m (b : Int)))
        (powc m ((a : Int) + (b : Int))) := by
  refine ⟨pow_natCast m n, ?_, ?_⟩
  · have h := pow_natCast m 0
    rw [Nat.cast_zero] at h
    rw [h]
    rfl
  · apply equal_of_eq
    simp only [powc, clone_eq, ← Nat.cast_add, pow_natCast, mpow_eq_pow,
      ← mul_def, pow_add]

/-- C4 (amended): the flat-array round-trip is not the identity but the
transpose: `M.array()` spreads the buffer in column-major order while
static `Matrix3.array` reads its argument in row-major order, so
`Matrix3.array(M.array())` equals `M.trans()` exactly (hence equals `M`
only on symmetric matrices). -/
theorem array_roundtrip_transposes {α : Type} [Field α] (m : Matrix3 α) :
    ofArray (array m) = trans m := by
  cases m
  rfl

/-- Counterexample to C4 as stated: for the concrete rational matrix with
rows `(1,2,3) (4,5,6) (7,8,9)` the round-trip produces the transpose, at
squared distance `48` from the original — far above `epsilon2`. -/
theorem array_roundtrip_fails_on_asymmetric :
    ¬equal (ofArray (array (make 1 2 3 4 5 6 7 8 9 : Matrix3 ℚ)))
      (make 1 2 3 4 5 6 7 8 9) := by
  norm_num [equal, dist2, ofArray, array, make, epsilon2]

/-- C5 (code bug): the row views do not round-trip.  Writing the vector
`(1,2,3)` through `set x` on the zero matrix and reading `get x` back
yields `(1,0,0)`: the setter writes the first logical row
(`this[0],this[3],this[6]`) but the getter — whose own doc comment says
"first row as vector" — reads the first storage column
(`this[0],this[1],this[2]`). -/
theorem row_view_roundtrip_broken :
    x (setX (zeros : Matrix3 ℚ) ⟨1, 2, 3⟩) = (⟨1, 0, 0⟩ : Vector3 ℚ) ∧
      x (setX (zeros : Matrix3 ℚ) ⟨1, 2, 3⟩) ≠ (⟨1, 2, 3⟩ : Vector3 ℚ) := by
  decide

/-- C6: on a nonsingular matrix, `invc` succeeds and the result is a
two-sided inverse: `M.prodc(M.invc())` and `M.invc().prod(M)` both equal
the identity (here even exactly, hence within the fuzzy tolerance). -/
theorem inv_gives_two_sided_inverse {α : Type} [LinearOrderedField α]
    (m : Matrix3 α) (h : det m ≠ 0) :
    ∃ mi : Matrix3 α, invc m = some mi ∧
      equal (prodc m mi) eye ∧ equal (prod mi m) eye := by
  obtain ⟨mi, hmi⟩ : ∃ mi, inv m = some mi := by
    cases hinv : inv m with
    | none => exact absurd ((inv_eq_none_iff m).mp hinv) h
    | some mi => exact ⟨mi, rfl⟩
  obtain ⟨h1, h2⟩ := inv_correct m mi hmi
  refine ⟨mi, ?_, equal_of_eq ?_, equal_of_eq ?_⟩
  · rw [invc, clone_eq, hmi]
  · rw [prodc, clone_eq, h1]
  · rw [h2]

/-- Witness for C6 at the identity matrix over `ℚ`. -/
theorem inv_gives_two_sided_inverse_witness :
    ∃ mi : Matrix3 ℚ, invc eye = some mi ∧
      equal (prodc eye mi) eye ∧ equal (prod mi eye) eye :=
  inv_gives_two_sided_inverse eye (by norm_num [det, eye, make])

/-- C7: every copying variant equals its mutating operation applied to
`clone()` of the receiver, and `clone` rebuilds the receiver cell-for-cell;
hence each `<op>c` returns exactly what `<op>` would have turned the
receiver into, while the receiver itself is untouched (in the
state-passing embedding the `<op>c` functions never rebind the receiver's
cells — they write only the clone). -/
theorem copy_variants_are_clone_then_op (m k : Matrix3 ℝ) (s t : ℝ)
    (e : Int) :
    clone m = m ∧
      addc m k = add m k ∧ subc m k = sub m k ∧ negc m = neg m ∧
      mulc m s = mul m s ∧ divc m s = div m s ∧ lerpc m k t = lerp m k t ∧
      fillc m s = fill m s ∧ normc m = norm m ∧ transc m = trans m ∧
      prodc m k = prod m k ∧ invc m = inv m ∧ adjc m = adj m ∧
      powc m e = pow m e := by
  refine ⟨clone_eq m, ?_, ?_, ?_, ?_, ?_, ?_, ?_, ?_, ?_, ?_, ?_, ?_, ?_⟩ <;>
    simp only [addc, subc, negc, mulc, divc, lerpc, fillc, normc, transc,
      prodc, invc, adjc, powc, clone_eq]

/-- C8: applying `Matrix3.rotZ(π/2)` via `at` to `(1,0,0)` yields `(0,1,0)`
within `epsilon2` — here exactly, since `cos(π/2) = 0` and `sin(π/2) = 1`
over the reals; the result is the updated value of the argument vector in
the state-passing embedding of `at`'s write-back. -/
theorem rotZ_quarter_turn_on_ex :
    Vector3.dist2 (atv (rotZ (Real.pi / 2) Real.cos Real.sin) ⟨1, 0, 0⟩)
      (⟨0, 1, 0⟩ : Vector3 ℝ) < epsilon2 := by
  have h : atv (rotZ (Real.pi / 2) Real.cos Real.sin) ⟨1, 0, 0⟩ =
      (⟨0, 1, 0⟩ : Vector3 ℝ) := by
    simp [atv, rotZ, make, Real.cos_pi_div_two, Real.sin_pi_div_two]
  rw [h, show Vector3.dist2 (⟨0, 1, 0⟩ : Vector3 ℝ) ⟨0, 1, 0⟩ = 0 by
    simp [Vector3.dist2]]
  exact epsilon2_pos

/-- C9: on a singular matrix a negative exponent never produces the absence
sentinel: the inner `this.inv()` statement discards the `undefined` result
and leaves the receiver unchanged, so `pow(n)` returns `M` raised to `|n|`;
in particular `pow(-1)` returns `M` itself. -/
theorem pow_negative_singular_silent {α : Type} [Field α] [DecidableEq α]
    (m : Matrix3 α) (h : det m = 0) :
    (∀ n : Int, n < 0 → pow m n = mpow m n.natAbs) ∧ pow m (-1) = m := by
  refine ⟨fun n hn => pow_neg_singular m h n hn, ?_⟩
  rw [pow_neg_singular m h (-1) (by norm_num)]
  rw [show ((-1 : Int).natAbs) = 1 from rfl, mpow, mpow, eye_prod]

/-- Witness for C9 at the concrete singular matrix `diag(1,0,0)` over `ℚ`:
its `pow(-2)` is its square and its `pow(-1)` is itself. -/
theorem pow_negative_singular_silent_witness :
    pow (make 1 0 0 0 0 0 0 0 0 : Matrix3 ℚ) (-2) =
        mpow (make 1 0 0 0 0 0 0 0 0) 2 ∧
      pow (make 1 0 0 0 0 0 0 0 0 : Matrix3 ℚ) (-1) =
        make 1 0 0 0 0 0 0 0 0 :=
  ⟨(pow_negative_singular_silent (make 1 0 0 0 0 0 0 0 0)
      (by norm_num [det, make])).1 (-2) (by norm_num),
    (pow_negative_singular_silent (make 1 0 0 0 0 0 0 0 0)
      (by norm_num [det, make])).2⟩

/-- C10: for every matrix, singular ones included, the product with the
adjugate is the scalar matrix of the determinant, as an exact identity of
the nine cells: `M.prodc(M.adjc()) = Matrix3.scalar(M.det)`. -/
theorem prod_adjugate_eq_scalar_det {α : Type} [Field α] (m : Matrix3 α) :
    prodc m (adjc m) = scalar (det m) := by
  rw [prodc, adjc, clone_eq, prod_adj]

end Claims

end Matrix3

end Space3
